import Mathlib

/-!
Verification development for `svgrep` (src/src/main.rs), a grep-like tool for
separated-values files.  Strings are modelled as lists of characters; Rust's
`str::split` is modelled by `rustSplit`; compiled regexes are modelled by their
pattern text, with matching semantics an explicit parameter (`sem`), since the
program only ever calls `Regex::is_match`.
-/

/-- Strings are modelled as lists of characters. -/
abbrev Str := List Char

/-- Rendering of a `usize` by `format!("{}", i)`. -/
def natToStr (n : Nat) : Str := (Nat.repr n).data

/-- Model of Rust's `str::trim` (strip leading/trailing whitespace;
whitespace modelled by `Char.isWhitespace`). -/
def trimStr (s : Str) : Str :=
  ((s.dropWhile Char.isWhitespace).reverse.dropWhile Char.isWhitespace).reverse

/-- `maybe_trim` from the source: trim the cell text iff the flag is set. -/
def maybe_trim (trim : Bool) (cell : Str) : Str :=
  if trim then trimStr cell else cell

/-- Leftmost occurrence search backing the model of Rust's `str::split`:
`firstSplit p s = some (b, a)` when `s = b ++ p ++ a` and the shown
occurrence of `p` is the leftmost one.  Returns `none` when `p` (nonempty)
does not occur in `s`. -/
def firstSplit (p : Str) : Str → Option (Str × Str)
  | [] => none
  | c :: rest =>
    if p.isPrefixOf (c :: rest) then some ([], (c :: rest).drop p.length)
    else
      match firstSplit p rest with
      | none => none
      | some (b, a) => some (c :: b, a)

theorem firstSplit_eq_append {p : Str} :
    ∀ {s b a : Str}, firstSplit p s = some (b, a) → s = b ++ p ++ a := by
  intro s
  induction s with
  | nil => intro b a h; simp [firstSplit] at h
  | cons c rest ih =>
    intro b a h
    by_cases hpre : p.isPrefixOf (c :: rest)
    · rw [firstSplit, if_pos hpre] at h
      obtain ⟨t, ht⟩ := List.isPrefixOf_iff_prefix.mp hpre
      cases h
      simp only [List.nil_append]
      rw [← ht, List.drop_left]
    · rw [firstSplit, if_neg hpre] at h
      cases hfs : firstSplit p rest with
      | none => rw [hfs] at h; cases h
      | some ba =>
        obtain ⟨b', a'⟩ := ba
        rw [hfs] at h
        cases h
        have := ih hfs
        simp [this]

theorem firstSplit_length_lt {p s b a : Str} (hp : p ≠ [])
    (h : firstSplit p s = some (b, a)) : a.length < s.length := by
  have hs := firstSplit_eq_append h
  subst hs
  have : 0 < p.length := List.length_pos.mpr hp
  simp [List.length_append]
  omega

/-- Fuel-driven loop of the split: with fuel exceeding the string length the
fuel never runs out (each step strictly shortens the remainder). -/
def rustSplitGo (p : Str) : Nat → Str → List Str
  | 0, s => [s]
  | fuel + 1, s =>
    match firstSplit p s with
    | none => [s]
    | some (b, a) => b :: rustSplitGo p fuel a

/-- Model of Rust's `str::split(p).collect::<Vec<_>>()`.  For a nonempty
pattern this splits at each leftmost, non-overlapping occurrence.  For the
empty pattern Rust's `Pattern` matches at every char boundary including both
ends, giving `["", c1, …, cn, ""]`. -/
def rustSplit (p s : Str) : List Str :=
  if p = [] then [] :: (s.map (fun c => [c]) ++ [[]])
  else rustSplitGo p (s.length + 1) s

theorem rustSplitGo_ne_nil (p : Str) (fuel : Nat) (s : Str) :
    rustSplitGo p fuel s ≠ [] := by
  cases fuel with
  | zero => simp [rustSplitGo]
  | succ n =>
    rw [rustSplitGo]
    cases firstSplit p s with
    | none => simp
    | some ba => cases ba; simp

theorem rustSplit_ne_nil (p s : Str) : rustSplit p s ≠ [] := by
  rw [rustSplit]
  by_cases hp : p = []
  · simp [hp]
  · simpa [hp] using rustSplitGo_ne_nil p (s.length + 1) s

theorem rustSplitGo_fuel_irrel (p : Str) (hp : p ≠ []) :
    ∀ f1 f2 s, s.length < f1 → s.length < f2 →
      rustSplitGo p f1 s = rustSplitGo p f2 s := by
  intro f1
  induction f1 with
  | zero => intro f2 s h1; omega
  | succ n ih =>
    intro f2 s h1 h2
    cases f2 with
    | zero => omega
    | succ m =>
      rw [rustSplitGo, rustSplitGo]
      cases hfs : firstSplit p s with
      | none => rfl
      | some ba =>
        obtain ⟨b, a⟩ := ba
        have hlt := firstSplit_length_lt hp hfs
        simp only
        rw [ih m a (by omega) (by omega)]

theorem rustSplit_cons {p s b a : Str} (hp : p ≠ [])
    (h : firstSplit p s = some (b, a)) :
    rustSplit p s = b :: rustSplit p a := by
  rw [rustSplit, rustSplit, if_neg hp, if_neg hp]
  rw [rustSplitGo, h]
  have hlt := firstSplit_length_lt hp h
  simp only
  rw [rustSplitGo_fuel_irrel p hp (s.length) (a.length + 1) a (by omega) (by omega)]

theorem rustSplit_single {p s : Str} (hp : p ≠ [])
    (h : firstSplit p s = none) : rustSplit p s = [s] := by
  rw [rustSplit, if_neg hp, rustSplitGo, h]

/-- `CSVRow` from the source: one parsed input record. -/
structure CSVRow where
  cells : List Str
deriving DecidableEq

/-- `CellSelect` from the source: render all cells, or an explicit index list. -/
inductive CellSelect where
  | ALL : CellSelect
  | Some (cols : List Nat) : CellSelect
deriving DecidableEq

/-- `MatchExp` from the source.  A compiled `Regex` is represented by its
pattern text; the matching semantics is supplied separately (`sem`), since the
program only ever calls `Regex::is_match`.  `cell_rxs` models the
`HashMap<usize, Regex>` as an association list with unique keys. -/
structure MatchExp where
  rxs : List Str
  cell_rxs : List (Nat × Str)
  sel : CellSelect
deriving DecidableEq

/-- `Config` from the source (only the fields the row pipeline reads). -/
structure Config where
  separator : Str
  trim : Bool
  match_exps : List MatchExp

/-- `MatchExp::empty`. -/
def MatchExp.empty : MatchExp := ⟨[], [], CellSelect.ALL⟩

/-- `CSVRow::parse_line`: split the line on the separator. -/
def CSVRow.parse_line (line : Str) (sep : Str) : CSVRow :=
  ⟨rustSplit sep line⟩

/-- `CSVRow::get_cell`. -/
def CSVRow.get_cell (row : CSVRow) (idx : Nat) : Option Str :=
  if row.cells.length ≤ idx then none
  else some (row.cells.getD idx [])

/-- The row-match decision of `MatchExp::match_and_select` (the value of
`row_matches` after the three assignments), with `sem pat cell` standing for
`Regex::is_match` of the regex compiled from `pat`, applied to `cell`. -/
def MatchExp.matchRow (sem : Str → Str → Bool) (e : MatchExp) (row : CSVRow) : Bool :=
  let base := e.rxs.isEmpty && e.cell_rxs.isEmpty
  let indexed := base || e.cell_rxs.all (fun irx =>
    match row.get_cell irx.1 with
    | none => false
    | some cell => sem irx.2 cell)
  indexed && e.rxs.all (fun rx => row.cells.any (fun cell => sem rx cell))

/-- `<no col N>` placeholder text. -/
def noCol (i : Nat) : Str := "<no col ".data ++ natToStr i ++ ['>']

/-- The `CellSelect::ALL` arm of `CSVRow::print`: each cell is printed as
`({i}) {cell}{sep} `, the index counting up from the given start. -/
def printAllAux (sep : Str) (trim : Bool) : Nat → List Str → Str
  | _, [] => []
  | i, cell :: rest =>
    (('(' :: natToStr i) ++ [')', ' '] ++ maybe_trim trim cell ++ sep ++ [' '])
      ++ printAllAux sep trim (i + 1) rest

/-- The `CellSelect::Some` arm of `CSVRow::print`: each requested index
prints either `<no col {i}>` (out of range) or `({i}) {cell}`, followed in
both cases by `{sep} `.  The in-range branch reads `cells[i]` only under the
bounds guard, so the `getD` default is never taken. -/
def printSomeAux (row : CSVRow) (sep : Str) (trim : Bool) : List Nat → Str
  | [] => []
  | i :: rest =>
    ((if row.cells.length ≤ i then noCol i
      else ('(' :: natToStr i) ++ [')', ' '] ++ maybe_trim trim (row.cells.getD i []))
      ++ sep ++ [' ']) ++ printSomeAux row sep trim rest

/-- `CSVRow::print`: the text of the one output line produced for a matching
row (the terminating `println!` newline is not part of the modelled text). -/
def CSVRow.print (row : CSVRow) (cols : CellSelect) (config : Config) : Str :=
  match cols with
  | CellSelect.ALL => printAllAux config.separator config.trim 0 row.cells
  | CellSelect.Some cs => printSomeAux row config.separator config.trim cs

/-- `MatchExp::match_and_select`: the output line if the row matches. -/
def MatchExp.match_and_select (sem : Str → Str → Bool) (e : MatchExp)
    (row : CSVRow) (config : Config) : Option Str :=
  if e.matchRow sem row then some (row.print e.sel config) else none

/-- The inner loop of `svgrep_lines`: one row against every expression, in
declaration order, collecting the printed lines. -/
def runRow (sem : Str → Str → Bool) (exps : List MatchExp) (row : CSVRow)
    (config : Config) : List Str :=
  match exps with
  | [] => []
  | e :: rest =>
    match e.match_and_select sem row config with
    | none => runRow sem rest row config
    | some out => out :: runRow sem rest row config

/-- The outer loop of `svgrep_lines`: lines in input order. -/
def linesLoop (sem : Str → Str → Bool) (exps : List MatchExp) (config : Config) :
    List Str → List Str
  | [] => []
  | l :: rest =>
    runRow sem exps (CSVRow.parse_line l config.separator) config
      ++ linesLoop sem exps config rest

/-- `svgrep_lines`: when no `--match` expression was supplied the single
universal matcher `MatchExp::empty` is substituted. -/
def svgrep_lines (sem : Str → Str → Bool) (lines : List Str) (config : Config) :
    List Str :=
  if config.match_exps.isEmpty then linesLoop sem [MatchExp.empty] config lines
  else linesLoop sem config.match_exps config lines

/-- The code-point ranges of the Unicode `Nd` (decimal digit) general
category, Unicode 14.0 — the character class the `regex` crate's `\d`
matches in its default Unicode mode. -/
def ndRanges : List (Nat × Nat) :=
  [(0x30, 0x39), (0x660, 0x669), (0x6f0, 0x6f9), (0x7c0, 0x7c9), (0x966, 0x96f),
   (0x9e6, 0x9ef), (0xa66, 0xa6f), (0xae6, 0xaef), (0xb66, 0xb6f), (0xbe6, 0xbef),
   (0xc66, 0xc6f), (0xce6, 0xcef), (0xd66, 0xd6f), (0xde6, 0xdef), (0xe50, 0xe59),
   (0xed0, 0xed9), (0xf20, 0xf29), (0x1040, 0x1049), (0x1090, 0x1099), (0x17e0, 0x17e9),
   (0x1810, 0x1819), (0x1946, 0x194f), (0x19d0, 0x19d9), (0x1a80, 0x1a89), (0x1a90, 0x1a99),
   (0x1b50, 0x1b59), (0x1bb0, 0x1bb9), (0x1c40, 0x1c49), (0x1c50, 0x1c59), (0xa620, 0xa629),
   (0xa8d0, 0xa8d9), (0xa900, 0xa909), (0xa9d0, 0xa9d9), (0xa9f0, 0xa9f9), (0xaa50, 0xaa59),
   (0xabf0, 0xabf9), (0xff10, 0xff19), (0x104a0, 0x104a9), (0x10d30, 0x10d39),
   (0x11066, 0x1106f), (0x110f0, 0x110f9), (0x11136, 0x1113f), (0x111d0, 0x111d9),
   (0x112f0, 0x112f9), (0x11450, 0x11459), (0x114d0, 0x114d9), (0x11650, 0x11659),
   (0x116c0, 0x116c9), (0x11730, 0x11739), (0x118e0, 0x118e9), (0x11950, 0x11959),
   (0x11c50, 0x11c59), (0x11d50, 0x11d59), (0x11da0, 0x11da9), (0x16a60, 0x16a69),
   (0x16ac0, 0x16ac9), (0x16b50, 0x16b59), (0x1d7ce, 0x1d7ff), (0x1e140, 0x1e149),
   (0x1e2f0, 0x1e2f9), (0x1e950, 0x1e959), (0x1fbf0, 0x1fbf9)]

/-- Membership in the Unicode `Nd` category: the `regex` crate's `\d`. -/
def isNd (c : Char) : Bool :=
  ndRanges.any (fun r => r.1 ≤ c.toNat && c.toNat ≤ r.2)

/-- `NUMBER_RX`, i.e. `^\d+.*$`: matches iff the first character is a
Unicode decimal digit and no later character is a newline (in the `regex`
crate `\d` is Unicode `\p\x7bNd\x7d`, `.` excludes `\n`, and `$` is
end-of-haystack). -/
def numberRx (s : Str) : Bool :=
  match s with
  | [] => false
  | c :: rest => isNd c && rest.all (fun ch => ch != '\n')

/-- `ASTERISK_RX`, i.e. `^\*$`: matches exactly the one-character string `*`. -/
def asteriskRx (s : Str) : Bool := s == ['*']

/-- Drop one leading `+` sign, as Rust's unsigned `FromStr` allows. -/
def stripPlus : Str → Str
  | '+' :: rest => rest
  | s => s

/-- Parse a string of ASCII digits as a `usize` value (64-bit bound). -/
def parseDigits (digits : Str) : Option Nat :=
  if digits = [] then none
  else if digits.all Char.isDigit then
    if digits.foldl (fun acc c => acc * 10 + (c.toNat - 48)) 0 < 2 ^ 64 then
      some (digits.foldl (fun acc c => acc * 10 + (c.toNat - 48)) 0)
    else none
  else none

/-- Model of `str::parse::<usize>`: optional leading `+`, then one or more
ASCII digits, value below `2^64` (64-bit `usize`). -/
def parseUsize (s : Str) : Option Nat :=
  parseDigits (stripPlus s)

/-- A fatal outcome: `panicMsg` models a Rust panic (from `expect` or an
out-of-bounds index), `errorExit` models the `error` function
(`eprintln!("Error: {}", msg)` followed by `exit(1)`). -/
inductive Fatal where
  | panicMsg (msg : Str) : Fatal
  | errorExit (msg : Str) : Fatal
deriving DecidableEq

def invalidColumnMsg : Str := "Invalid match column!".data

def indexOobMsg : Str := "index out of bounds".data

def invalidSpecMsg (spec : Str) : Str :=
  '\'' :: (spec ++ "' is no valid column spec!".data)

/-- One iteration of the `build_rxs` loop body for the clause `clause`, split
on the matches-char `mc`: the clause's contribution (`.inl (column, pattern)`
for a numeric column spec, `.inr pattern` for `*`) or the fatal outcome the
Rust code takes.  Rust evaluates arguments left to right, so in the numeric
branch the column text is parsed before `col_and_rx[1]` is accessed; regex
compilation itself is kept abstract (the pattern text is retained). -/
def clauseFromParts : List Str → Except Fatal (Sum (Nat × Str) Str)
  | [] => Except.error (Fatal.panicMsg indexOobMsg)
  | c0 :: rest =>
    if numberRx c0 then
      match parseUsize c0 with
      | none => Except.error (Fatal.panicMsg invalidColumnMsg)
      | some n =>
        match rest with
        | [] => Except.error (Fatal.panicMsg indexOobMsg)
        | c1 :: _ => Except.ok (Sum.inl (n, c1))
    else if asteriskRx c0 then
      match rest with
      | [] => Except.error (Fatal.panicMsg indexOobMsg)
      | c1 :: _ => Except.ok (Sum.inr c1)
    else
      Except.error (Fatal.errorExit (invalidSpecMsg c0))

def compileClause (mc : Str) (clause : Str) : Except Fatal (Sum (Nat × Str) Str) :=
  clauseFromParts (rustSplit mc clause)

/-- `HashMap::insert`: the binding for `k` is replaced.  The map is modelled
as an association list with unique keys; the Rust `HashMap` iteration order
is unspecified and the program only folds a commutative `all` over entries. -/
def hmInsert (k : Nat) (v : Str) (hm : List (Nat × Str)) : List (Nat × Str) :=
  (k, v) :: hm.filter (fun kv => kv.1 != k)

/-- The loop of `build_rxs` over the conjunction-split clauses, carrying the
vector `v` of any-column patterns and the map `hm` of per-column patterns. -/
def buildRxsLoop (mc : Str) : List Str → List Str × List (Nat × Str) →
    Except Fatal (List Str × List (Nat × Str))
  | [], acc => Except.ok acc
  | clause :: rest, (v, hm) =>
    match compileClause mc clause with
    | Except.error f => Except.error f
    | Except.ok (Sum.inl (n, pat)) => buildRxsLoop mc rest (v, hmInsert n pat hm)
    | Except.ok (Sum.inr pat) => buildRxsLoop mc rest (v ++ [pat], hm)

/-- `build_rxs`: a missing capture gives no predicates; otherwise the capture
is split on the conjunction char and each clause is processed in order. -/
def build_rxs (mc conj : Str) (m : Option Str) :
    Except Fatal (List Str × List (Nat × Str)) :=
  match m with
  | none => Except.ok ([], [])
  | some s => buildRxsLoop mc (rustSplit conj s) ([], [])

/-- Substring containment: the semantics of `Regex::is_match` for a pattern
that is a literal string with no regex metacharacters. -/
def containsSeg (pat : Str) : Str → Bool
  | [] => pat.isPrefixOf []
  | c :: rest => pat.isPrefixOf (c :: rest) || containsSeg pat rest

/-- `Regex::is_match` for a metacharacter-free pattern. -/
def litRegex (pat s : Str) : Bool := containsSeg pat s

theorem intercalate_cons_ne_nil {p b : Str} {l : List Str} (h : l ≠ []) :
    List.intercalate p (b :: l) = b ++ p ++ List.intercalate p l := by
  cases l with
  | nil => exact absurd rfl h
  | cons x t => simp [List.intercalate, List.intersperse, List.append_assoc]

theorem intercalate_singleton (p s : Str) : List.intercalate p [s] = s := by
  simp [List.intercalate, List.intersperse]

theorem intercalate_rustSplitGo {p : Str} (hp : p ≠ []) :
    ∀ fuel s, s.length < fuel →
      List.intercalate p (rustSplitGo p fuel s) = s := by
  intro fuel
  induction fuel with
  | zero => intro s hs; omega
  | succ n ih =>
    intro s hs
    rw [rustSplitGo]
    cases hfs : firstSplit p s with
    | none => exact intercalate_singleton p s
    | some ba =>
      obtain ⟨b, a⟩ := ba
      have heq := firstSplit_eq_append hfs
      have hlt := firstSplit_length_lt hp hfs
      simp only
      rw [intercalate_cons_ne_nil (rustSplitGo_ne_nil p n a)]
      rw [ih a (by omega)]
      simp [heq]

theorem intercalate_nil_eq_flatten (xs : List Str) :
    List.intercalate ([] : Str) xs = xs.flatten := by
  induction xs with
  | nil => simp [List.intercalate]
  | cons x t ih =>
    cases t with
    | nil => simp [List.intercalate, List.intersperse]
    | cons y u =>
      rw [intercalate_cons_ne_nil (by simp)]
      simp [ih]

/-- C10: for every input line `L` and every separator string `sep`, splitting
`L` by `sep` into cells and rejoining the cells with `sep` reproduces `L`
exactly (round trip on the raw split of `CSVRow::parse_line`). -/
theorem c10_split_join_round_trip (sep L : Str) :
    List.intercalate sep (CSVRow.parse_line L sep).cells = L := by
  show List.intercalate sep (rustSplit sep L) = L
  by_cases hp : sep = []
  · subst hp
    rw [rustSplit, if_pos rfl, intercalate_nil_eq_flatten]
    induction L with
    | nil => simp
    | cons c rest ih => simp_all
  · rw [rustSplit, if_neg hp]
    exact intercalate_rustSplitGo hp (L.length + 1) L (by omega)

theorem matchCellBody_eq_true (sem : Str → Str → Bool) (row : CSVRow) (irx : Nat × Str) :
    ((match row.get_cell irx.1 with
      | none => false
      | some cell => sem irx.2 cell) = true) ↔
      ∃ cell, row.get_cell irx.1 = some cell ∧ sem irx.2 cell = true := by
  cases h : row.get_cell irx.1 <;> simp

/-- C1: for every compiled `MatchExp` and every `CSVRow`, the evaluator's
match decision equals the spec formula
`(no ColumnPredicates and no AnyColumnPredicates, OR every ColumnPredicate
holds) AND (every AnyColumnPredicate matches at least one cell)`; in
particular, with zero ColumnPredicates the decision reduces to the
any-column conjunct alone. -/
theorem c1_match_decision (sem : Str → Str → Bool) (e : MatchExp) (row : CSVRow) :
    (e.matchRow sem row = true ↔
      (((e.cell_rxs = [] ∧ e.rxs = []) ∨
        ∀ irx ∈ e.cell_rxs, ∃ cell, row.get_cell irx.1 = some cell ∧ sem irx.2 cell = true) ∧
       (∀ rx ∈ e.rxs, ∃ cell ∈ row.cells, sem rx cell = true))) ∧
    (e.cell_rxs = [] →
      (e.matchRow sem row = true ↔ ∀ rx ∈ e.rxs, ∃ cell ∈ row.cells, sem rx cell = true)) := by
  have main : e.matchRow sem row = true ↔
      (((e.cell_rxs = [] ∧ e.rxs = []) ∨
        ∀ irx ∈ e.cell_rxs, ∃ cell, row.get_cell irx.1 = some cell ∧ sem irx.2 cell = true) ∧
       (∀ rx ∈ e.rxs, ∃ cell ∈ row.cells, sem rx cell = true)) := by
    simp only [MatchExp.matchRow, Bool.and_eq_true, Bool.or_eq_true, List.isEmpty_iff,
      List.all_eq_true, List.any_eq_true, decide_eq_true_eq, matchCellBody_eq_true]
    tauto
  refine ⟨main, fun hnil => ?_⟩
  rw [main]
  simp [hnil]

/-- The per-index piece of output in the explicit-selection arm of
`CSVRow::print`. -/
def somePiece (row : CSVRow) (sep : Str) (trim : Bool) (i : Nat) : Str :=
  (if row.cells.length ≤ i then noCol i
   else ('(' :: natToStr i) ++ [')', ' '] ++ maybe_trim trim (row.cells.getD i []))
    ++ sep ++ [' ']

theorem printSomeAux_eq_flatten (row : CSVRow) (sep : Str) (trim : Bool)
    (cols : List Nat) :
    printSomeAux row sep trim cols =
      (cols.map (somePiece row sep trim)).flatten := by
  induction cols with
  | nil => rfl
  | cons i rest ih =>
    simp only [printSomeAux, List.map_cons, List.flatten_cons, somePiece, ih,
      List.append_assoc]

/-- C5: for every row with an explicit display-column selection, printing
renders one piece per requested index (so a bad index never aborts the row's
output or the run); a requested index at or beyond the row's cell count
renders the literal placeholder `<no col N>` in its position, and every
placeholder does occur in the rendered line. -/
theorem c5_out_of_range_placeholder (row : CSVRow) (cols : List Nat) (config : Config) :
    (row.print (CellSelect.Some cols) config =
      (cols.map (fun i =>
        (if row.cells.length ≤ i then noCol i
         else ('(' :: natToStr i) ++ [')', ' '] ++
           maybe_trim config.trim (row.cells.getD i []))
        ++ config.separator ++ [' '])).flatten) ∧
    (∀ i ∈ cols, row.cells.length ≤ i →
      ∃ s t, row.print (CellSelect.Some cols) config = s ++ (noCol i ++ t)) := by
  have heq := printSomeAux_eq_flatten row config.separator config.trim cols
  constructor
  · exact heq
  · intro i hi hlen
    obtain ⟨l1, l2, hcols⟩ := List.append_of_mem hi
    refine ⟨(l1.map (somePiece row config.separator config.trim)).flatten,
      config.separator ++ [' '] ++
        (l2.map (somePiece row config.separator config.trim)).flatten, ?_⟩
    show row.print (CellSelect.Some cols) config = _
    rw [show row.print (CellSelect.Some cols) config =
        printSomeAux row config.separator config.trim cols from rfl, heq, hcols]
    simp only [List.map_append, List.map_cons, List.flatten_append, List.flatten_cons,
      somePiece, if_pos hlen, List.append_assoc]

theorem printAllAux_trim (sep : Str) (i : Nat) (cells : List Str) :
    printAllAux sep true i cells =
      printAllAux sep false i (cells.map trimStr) := by
  induction cells generalizing i with
  | nil => rfl
  | cons c rest ih =>
    simp [printAllAux, maybe_trim, ih]

theorem printSomeAux_trim (row : CSVRow) (sep : Str) (cols : List Nat) :
    printSomeAux row sep true cols =
      printSomeAux ⟨row.cells.map trimStr⟩ sep false cols := by
  induction cols with
  | nil => rfl
  | cons i rest ih =>
    simp only [printSomeAux, List.length_map, ih]
    by_cases hlen : row.cells.length ≤ i
    · rw [if_pos hlen, if_pos hlen]
    · rw [if_neg hlen, if_neg hlen]
      have hlt : i < row.cells.length := by omega
      have hgd : (row.cells.map trimStr).getD i [] = trimStr (row.cells.getD i []) := by
        simp only [List.getD_eq_getElem?_getD, List.getElem?_map]
        rw [List.getElem?_eq_getElem hlt]
        rfl
      rw [hgd]
      simp [maybe_trim]

/-- C8: the trim flag never affects the match decision — for every regex
semantics, expression, row and pair of configurations differing in the trim
flag, `match_and_select` produces output for exactly the same (row,
expression) pairs — and trim changes only the rendered cell text: printing
with trim on equals printing the cell-wise trimmed row with trim off. -/
theorem c8_trim_never_affects_matching (sem : Str → Str → Bool) (e : MatchExp)
    (row : CSVRow) (sep : Str) (t1 t2 : Bool) (exps1 exps2 : List MatchExp) :
    ((e.match_and_select sem row ⟨sep, t1, exps1⟩).isSome =
      (e.match_and_select sem row ⟨sep, t2, exps2⟩).isSome) ∧
    (∀ sel : CellSelect,
      CSVRow.print row sel ⟨sep, true, exps1⟩ =
        CSVRow.print ⟨row.cells.map trimStr⟩ sel ⟨sep, false, exps1⟩) := by
  constructor
  · rw [MatchExp.match_and_select, MatchExp.match_and_select]
    by_cases hm : e.matchRow sem row
    · rw [if_pos hm, if_pos hm]; rfl
    · rw [if_neg hm, if_neg hm]
  · intro sel
    cases sel with
    | ALL => exact printAllAux_trim sep 0 row.cells
    | Some cols => exact printSomeAux_trim row sep cols

theorem printAllAux_eq_flatten (sep : Str) (trim : Bool) (i : Nat) (cells : List Str) :
    printAllAux sep trim i cells =
      ((List.enumFrom i cells).map (fun p =>
        ('(' :: natToStr p.1) ++ [')', ' '] ++ maybe_trim trim p.2
          ++ sep ++ [' '])).flatten := by
  induction cells generalizing i with
  | nil => rfl
  | cons c rest ih =>
    simp only [printAllAux, List.enumFrom, List.map_cons, List.flatten_cons, ih]

theorem matchRow_empty (sem : Str → Str → Bool) (row : CSVRow) :
    MatchExp.empty.matchRow sem row = true := rfl

theorem runRow_universal (sem : Str → Str → Bool) (row : CSVRow) (config : Config) :
    runRow sem [MatchExp.empty] row config = [row.print CellSelect.ALL config] := by
  have hm : MatchExp.matchRow sem ⟨[], [], CellSelect.ALL⟩ row = true := rfl
  simp [runRow, MatchExp.match_and_select, MatchExp.empty, hm]

/-- C4: with no `--match` expression supplied, the program acts as a single
universal matcher with select-all: it emits exactly one output line per
input line, in input order, each listing every cell of the parsed row in
original order, prefixed with its index in parentheses. -/
theorem c4_universal_matcher (sem : Str → Str → Bool) (config : Config)
    (lines : List Str) (h : config.match_exps = []) :
    svgrep_lines sem lines config =
      lines.map (fun l =>
        (((rustSplit config.separator l).enum).map (fun p =>
          ('(' :: natToStr p.1) ++ [')', ' '] ++ maybe_trim config.trim p.2
            ++ config.separator ++ [' '])).flatten) := by
  rw [svgrep_lines, if_pos (by simp [h])]
  induction lines with
  | nil => rfl
  | cons l rest ih =>
    rw [linesLoop, runRow_universal, ih, List.map_cons]
    show _ :: _ = _ :: _
    congr 1
    show printAllAux config.separator config.trim 0 (rustSplit config.separator l) = _
    rw [printAllAux_eq_flatten]
    rfl

theorem runRow_eq_filter (sem : Str → Str → Bool) (exps : List MatchExp)
    (row : CSVRow) (config : Config) :
    runRow sem exps row config =
      (exps.filter (fun e => e.matchRow sem row)).map
        (fun e => row.print e.sel config) := by
  induction exps with
  | nil => rfl
  | cons e rest ih =>
    by_cases hm : e.matchRow sem row
    · simp [runRow, MatchExp.match_and_select, hm, ih, List.filter_cons]
    · simp [runRow, MatchExp.match_and_select, hm, ih, List.filter_cons]

theorem linesLoop_eq_flatten (sem : Str → Str → Bool) (exps : List MatchExp)
    (config : Config) (lines : List Str) :
    linesLoop sem exps config lines =
      (lines.map (fun l =>
        runRow sem exps (CSVRow.parse_line l config.separator) config)).flatten := by
  induction lines with
  | nil => rfl
  | cons l rest ih => simp [linesLoop, ih]

/-- C3: independently supplied `--match` expressions act as logical OR: every
row is evaluated against each compiled expression in declaration order and
printed once per expression it matches (twice if it satisfies two), and the
output is the input-order concatenation of every line's matches. -/
theorem c3_expressions_or (sem : Str → Str → Bool) (config : Config)
    (lines : List Str) (h : config.match_exps ≠ []) :
    (svgrep_lines sem lines config =
      (lines.map (fun l =>
        ((config.match_exps.filter (fun e =>
            e.matchRow sem (CSVRow.parse_line l config.separator))).map
          (fun e => (CSVRow.parse_line l config.separator).print e.sel config)))).flatten) ∧
    (∀ l : Str, (svgrep_lines sem [l] config).length =
      (config.match_exps.filter (fun e =>
        e.matchRow sem (CSVRow.parse_line l config.separator))).length) := by
  have hne : ¬ config.match_exps.isEmpty = true := by
    simp only [List.isEmpty_iff]
    exact h
  constructor
  · rw [svgrep_lines, if_neg hne, linesLoop_eq_flatten]
    simp only [runRow_eq_filter]
  · intro l
    rw [svgrep_lines, if_neg hne, linesLoop_eq_flatten]
    simp [runRow_eq_filter]

theorem firstSplit_isSome_iff {p : Str} (hp : p ≠ []) (s : Str) :
    (firstSplit p s).isSome = true ↔ ∃ a b, s = a ++ p ++ b := by
  constructor
  · intro h
    cases hfs : firstSplit p s with
    | none => rw [hfs] at h; cases h
    | some ba =>
      obtain ⟨b, a⟩ := ba
      exact ⟨b, a, firstSplit_eq_append hfs⟩
  · intro hex
    induction s with
    | nil =>
      obtain ⟨a, b, heq⟩ := hex
      have hlen := congrArg List.length heq
      simp only [List.length_nil, List.length_append] at hlen
      have : p = [] := List.length_eq_zero.mp (by omega)
      exact absurd this hp
    | cons c rest ih =>
      obtain ⟨a, b, heq⟩ := hex
      rw [firstSplit]
      by_cases hpre : p.isPrefixOf (c :: rest)
      · rw [if_pos hpre]; rfl
      · rw [if_neg hpre]
        cases a with
        | nil =>
          exfalso
          apply hpre
          rw [List.isPrefixOf_iff_prefix]
          exact ⟨b, by simpa using heq.symm⟩
        | cons c' a' =>
          simp only [List.cons_append, List.cons.injEq] at heq
          obtain ⟨hc, hrest⟩ := heq
          have := ih ⟨a', b, hrest⟩
          cases hfs : firstSplit p rest with
          | none => rw [hfs] at this; cases this
          | some ba => cases ba; rfl

theorem rustSplit_length_two_iff {p s : Str} (hp : p ≠ []) :
    2 ≤ (rustSplit p s).length ↔ ∃ a b, s = a ++ p ++ b := by
  rw [← firstSplit_isSome_iff hp]
  cases hfs : firstSplit p s with
  | none =>
    rw [rustSplit_single hp hfs]
    simp
  | some ba =>
    obtain ⟨b, a⟩ := ba
    rw [rustSplit_cons hp hfs]
    simp only [List.length_cons, Option.isSome_some]
    have := List.length_pos.mpr (rustSplit_ne_nil p a)
    constructor
    · intro _; trivial
    · intro _; omega

/-- C6 (safety): the unguarded access `col_and_rx[1]` in `build_rxs` is in
bounds exactly when the clause contains at least one occurrence of the
matches separator: the split has a second component iff the separator
occurs, a clause with an occurrence can never produce the index-out-of-bounds
panic, and a separator-free clause that reaches the access (numeric spec
whose column parses, or `*` spec) does produce it. -/
theorem c6_regex_index_in_bounds (mc clause : Str) (hmc : mc ≠ [])
    (_hroute : numberRx ((rustSplit mc clause).headD []) = true ∨
      asteriskRx ((rustSplit mc clause).headD []) = true) :
    (2 ≤ (rustSplit mc clause).length ↔ ∃ a b, clause = a ++ mc ++ b) ∧
    ((∃ a b, clause = a ++ mc ++ b) →
      compileClause mc clause ≠ Except.error (Fatal.panicMsg indexOobMsg)) ∧
    ((¬ ∃ a b, clause = a ++ mc ++ b) →
      ((numberRx ((rustSplit mc clause).headD []) = true ∧
          ∃ n, parseUsize ((rustSplit mc clause).headD []) = some n) ∨
        asteriskRx ((rustSplit mc clause).headD []) = true) →
      compileClause mc clause = Except.error (Fatal.panicMsg indexOobMsg)) := by
  refine ⟨rustSplit_length_two_iff hmc, ?_, ?_⟩
  · intro hex
    have h2 : 2 ≤ (rustSplit mc clause).length := (rustSplit_length_two_iff hmc).mpr hex
    rw [compileClause]
    cases hl : rustSplit mc clause with
    | nil => exact absurd hl (rustSplit_ne_nil mc clause)
    | cons c0 rest =>
      cases rest with
      | nil => rw [hl] at h2; simp at h2
      | cons c1 t =>
        rw [clauseFromParts]
        by_cases hn : numberRx c0 = true
        · rw [if_pos hn]
          cases hpu : parseUsize c0 with
          | none => simp [invalidColumnMsg, indexOobMsg]
          | some n => simp
        · rw [if_neg hn]
          by_cases ha : asteriskRx c0 = true
          · rw [if_pos ha]; simp
          · rw [if_neg ha]; simp
  · intro hnotex hacc
    have h1 : ¬ 2 ≤ (rustSplit mc clause).length := fun h2 =>
      hnotex ((rustSplit_length_two_iff hmc).mp h2)
    rw [compileClause]
    cases hl : rustSplit mc clause with
    | nil => exact absurd hl (rustSplit_ne_nil mc clause)
    | cons c0 rest =>
      cases rest with
      | cons c1 t => rw [hl] at h1; simp at h1
      | nil =>
        rw [hl] at hacc
        simp only [List.headD_cons] at hacc
        rw [clauseFromParts]
        rcases hacc with ⟨hn, n, hpu⟩ | ha
        · rw [if_pos hn, hpu]
        · by_cases hn : numberRx c0 = true
          · rw [if_pos hn]
            cases hpu : parseUsize c0 with
            | none =>
              exfalso
              rw [asteriskRx] at ha
              have hc0 : c0 = ['*'] := by
                have := eq_of_beq ha
                exact this
              rw [hc0] at hn
              exact absurd hn (by decide)
            | some n => rfl
          · rw [if_neg hn, if_pos ha]

theorem c6_regex_index_in_bounds_witness :
    (2 ≤ (rustSplit "=".data "1=foo".data).length ↔
      ∃ a b, "1=foo".data = a ++ "=".data ++ b) ∧
    ((∃ a b, "1=foo".data = a ++ "=".data ++ b) →
      compileClause "=".data "1=foo".data ≠ Except.error (Fatal.panicMsg indexOobMsg)) ∧
    ((¬ ∃ a b, "1=foo".data = a ++ "=".data ++ b) →
      ((numberRx ((rustSplit "=".data "1=foo".data).headD []) = true ∧
          ∃ n, parseUsize ((rustSplit "=".data "1=foo".data).headD []) = some n) ∨
        asteriskRx ((rustSplit "=".data "1=foo".data).headD []) = true) →
      compileClause "=".data "1=foo".data = Except.error (Fatal.panicMsg indexOobMsg)) :=
  c6_regex_index_in_bounds "=".data "1=foo".data (by decide) (Or.inl (by decide))

theorem clauseFromParts_take2 {l1 l2 : List Str} (h : l1.take 2 = l2.take 2) :
    clauseFromParts l1 = clauseFromParts l2 := by
  rcases l1 with _ | ⟨x1, _ | ⟨y1, t1⟩⟩ <;> rcases l2 with _ | ⟨x2, _ | ⟨y2, t2⟩⟩ <;>
    simp only [List.take, List.cons.injEq] at h <;> simp_all [clauseFromParts]

/-- C9: when a clause contains two or more occurrences of the matches
separator, compilation uses only the text between the first and the second
occurrence as the regex pattern — it is the second component of the split —
and every later segment is silently discarded: any clause whose first two
split components agree compiles identically. -/
theorem c9_between_first_and_second (mc clause a r1 b r2 : Str) (hmc : mc ≠ [])
    (h1 : firstSplit mc clause = some (a, r1))
    (h2 : firstSplit mc r1 = some (b, r2)) :
    clause = a ++ mc ++ (b ++ mc ++ r2) ∧
    (rustSplit mc clause).get? 1 = some b ∧
    (∀ clause2 : Str, (rustSplit mc clause2).take 2 = (rustSplit mc clause).take 2 →
      compileClause mc clause2 = compileClause mc clause) := by
  have heq1 := firstSplit_eq_append h1
  have heq2 := firstSplit_eq_append h2
  have hsplit : rustSplit mc clause = a :: b :: rustSplit mc r2 := by
    rw [rustSplit_cons hmc h1, rustSplit_cons hmc h2]
  refine ⟨by rw [heq1, heq2], by rw [hsplit]; rfl, ?_⟩
  intro clause2 htake
  rw [compileClause, compileClause]
  exact clauseFromParts_take2 htake

theorem c9_between_first_and_second_witness :
    "1=f=g".data = "1".data ++ "=".data ++ ("f".data ++ "=".data ++ "g".data) ∧
    (rustSplit "=".data "1=f=g".data).get? 1 = some "f".data := by
  have h := c9_between_first_and_second "=".data "1=f=g".data "1".data "f=g".data
    "f".data "g".data (by decide) (by decide) (by decide)
  exact ⟨h.1, h.2.1⟩

/-- The numeric column indices contributed by a clause list, in clause
order. -/
def numericKeys (mc : Str) (cs : List Str) : List Nat :=
  cs.filterMap (fun c =>
    match compileClause mc c with
    | Except.ok (Sum.inl (n, _)) => some n
    | _ => none)

/-- The claim's per-clause condition "the clause holds on the row": a numeric
clause `n=rx` holds iff the row has column `n` and the regex matches its
cell; an any-column clause `*=rx` holds iff some cell matches. -/
def clauseHolds (sem : Str → Str → Bool) (mc : Str) (row : CSVRow)
    (clause : Str) : Bool :=
  match compileClause mc clause with
  | Except.ok (Sum.inl (n, pat)) =>
    match row.get_cell n with
    | none => false
    | some cell => sem pat cell
  | Except.ok (Sum.inr pat) => row.cells.any (fun cell => sem pat cell)
  | Except.error _ => false

theorem buildRxsLoop_ok_clause {mc : Str} :
    ∀ (cs : List Str) (acc : List Str × List (Nat × Str))
      (out : List Str × List (Nat × Str)),
      buildRxsLoop mc cs acc = Except.ok out →
      ∀ c ∈ cs, ∃ r, compileClause mc c = Except.ok r := by
  intro cs
  induction cs with
  | nil => intro acc out _ c hc; cases hc
  | cons c' rest ih =>
    intro acc out hok c hc
    obtain ⟨v0, hm0⟩ := acc
    rw [buildRxsLoop] at hok
    cases hcc : compileClause mc c' with
    | error f => rw [hcc] at hok; cases hok
    | ok r =>
      rw [hcc] at hok
      rw [List.mem_cons] at hc
      rcases hc with rfl | hc
      · exact ⟨r, hcc⟩
      · cases r with
        | inl np =>
          obtain ⟨n, pat⟩ := np
          exact ih _ out hok c hc
        | inr pat => exact ih _ out hok c hc

theorem buildRxsLoop_v_mono {mc : Str} :
    ∀ (cs : List Str) (v0 : List Str) (hm0 : List (Nat × Str)) (v : List Str)
      (hm : List (Nat × Str)),
      buildRxsLoop mc cs (v0, hm0) = Except.ok (v, hm) →
      ∀ x ∈ v0, x ∈ v := by
  intro cs
  induction cs with
  | nil =>
    intro v0 hm0 v hm hok x hx
    rw [buildRxsLoop] at hok
    cases hok
    exact hx
  | cons c' rest ih =>
    intro v0 hm0 v hm hok x hx
    rw [buildRxsLoop] at hok
    cases hcc : compileClause mc c' with
    | error f => rw [hcc] at hok; cases hok
    | ok r =>
      rw [hcc] at hok
      cases r with
      | inl np =>
        obtain ⟨n, pat⟩ := np
        exact ih _ _ _ _ hok x hx
      | inr pat =>
        exact ih _ _ _ _ hok x (by simp [hx])

theorem buildRxsLoop_inr_mem {mc : Str} :
    ∀ (cs : List Str) (v0 : List Str) (hm0 : List (Nat × Str)) (v : List Str)
      (hm : List (Nat × Str)),
      buildRxsLoop mc cs (v0, hm0) = Except.ok (v, hm) →
      ∀ c ∈ cs, ∀ pat : Str,
        compileClause mc c = Except.ok (Sum.inr pat) → pat ∈ v := by
  intro cs
  induction cs with
  | nil => intro v0 hm0 v hm _ c hc; cases hc
  | cons c' rest ih =>
    intro v0 hm0 v hm hok c hc pat hpat
    rw [buildRxsLoop] at hok
    cases hcc : compileClause mc c' with
    | error f => rw [hcc] at hok; cases hok
    | ok r =>
      rw [hcc] at hok
      rw [List.mem_cons] at hc
      rcases hc with rfl | hc
      · rw [hcc] at hpat
        cases r with
        | inl np =>
          obtain ⟨n, p'⟩ := np
          simp at hpat
        | inr p' =>
          simp only [Except.ok.injEq, Sum.inr.injEq] at hpat
          subst hpat
          exact buildRxsLoop_v_mono rest _ _ _ _ hok p' (by simp)
      · cases r with
        | inl np =>
          obtain ⟨n, p'⟩ := np
          exact ih _ _ _ _ hok c hc pat hpat
        | inr p' => exact ih _ _ _ _ hok c hc pat hpat

theorem numericKeys_cons (mc : Str) (c : Str) (rest : List Str) :
    numericKeys mc (c :: rest) =
      (match compileClause mc c with
       | Except.ok (Sum.inl (n, _)) => n :: numericKeys mc rest
       | _ => numericKeys mc rest) := by
  rw [numericKeys, List.filterMap_cons]
  cases hcc : compileClause mc c with
  | error f => rfl
  | ok r =>
    cases r with
    | inl np => obtain ⟨n, pat⟩ := np; rfl
    | inr pat => rfl

theorem mem_numericKeys {mc : Str} {cs : List Str} {c : Str} {n : Nat} {pat : Str}
    (hc : c ∈ cs) (hcc : compileClause mc c = Except.ok (Sum.inl (n, pat))) :
    n ∈ numericKeys mc cs := by
  rw [numericKeys, List.mem_filterMap]
  exact ⟨c, hc, by rw [hcc]⟩

theorem buildRxsLoop_keep {mc : Str} :
    ∀ (cs : List Str) (v0 : List Str) (hm0 : List (Nat × Str)) (v : List Str)
      (hm : List (Nat × Str)) (n : Nat) (pat : Str),
      buildRxsLoop mc cs (v0, hm0) = Except.ok (v, hm) →
      (n, pat) ∈ hm0 → n ∉ numericKeys mc cs → (n, pat) ∈ hm := by
  intro cs
  induction cs with
  | nil =>
    intro v0 hm0 v hm n pat hok hmem _
    rw [buildRxsLoop] at hok
    cases hok
    exact hmem
  | cons c' rest ih =>
    intro v0 hm0 v hm n pat hok hmem hkeys
    rw [buildRxsLoop] at hok
    cases hcc : compileClause mc c' with
    | error f => rw [hcc] at hok; cases hok
    | ok r =>
      rw [hcc] at hok
      rw [numericKeys_cons, hcc] at hkeys
      cases r with
      | inl np =>
        obtain ⟨n', p'⟩ := np
        simp only [List.mem_cons, not_or] at hkeys
        obtain ⟨hne, hkeys'⟩ := hkeys
        refine ih _ _ _ _ _ _ hok ?_ hkeys'
        rw [hmInsert, List.mem_cons]
        right
        rw [List.mem_filter]
        refine ⟨hmem, ?_⟩
        simp only [bne_iff_ne, ne_eq]
        exact fun h => hne h
      | inr p' => exact ih _ _ _ _ _ _ hok hmem hkeys

theorem buildRxsLoop_inl_mem {mc : Str} :
    ∀ (cs : List Str) (v0 : List Str) (hm0 : List (Nat × Str)) (v : List Str)
      (hm : List (Nat × Str)),
      buildRxsLoop mc cs (v0, hm0) = Except.ok (v, hm) →
      (numericKeys mc cs).Nodup →
      ∀ c ∈ cs, ∀ (n : Nat) (pat : Str),
        compileClause mc c = Except.ok (Sum.inl (n, pat)) → (n, pat) ∈ hm := by
  intro cs
  induction cs with
  | nil => intro v0 hm0 v hm _ _ c hc; cases hc
  | cons c' rest ih =>
    intro v0 hm0 v hm hok hnodup c hc n pat hpat
    rw [buildRxsLoop] at hok
    cases hcc : compileClause mc c' with
    | error f => rw [hcc] at hok; cases hok
    | ok r =>
      rw [hcc] at hok
      rw [numericKeys_cons, hcc] at hnodup
      rw [List.mem_cons] at hc
      rcases hc with rfl | hc
      · rw [hcc] at hpat
        cases r with
        | inl np =>
          obtain ⟨n', p'⟩ := np
          simp only [Except.ok.injEq, Sum.inl.injEq, Prod.mk.injEq] at hpat
          obtain ⟨rfl, rfl⟩ := hpat
          rw [List.nodup_cons] at hnodup
          refine buildRxsLoop_keep rest _ _ _ _ _ _ hok ?_ hnodup.1
          rw [hmInsert]
          exact List.mem_cons_self _ _
        | inr p' => simp at hpat
      · cases r with
        | inl np =>
          obtain ⟨n', p'⟩ := np
          rw [List.nodup_cons] at hnodup
          exact ih _ _ _ _ hok hnodup.2 c hc n pat hpat
        | inr p' => exact ih _ _ _ _ hok hnodup c hc n pat hpat

theorem buildRxsLoop_keeps_ne {mc : Str} :
    ∀ (cs : List Str) (v0 : List Str) (hm0 : List (Nat × Str)) (v : List Str)
      (hm : List (Nat × Str)),
      buildRxsLoop mc cs (v0, hm0) = Except.ok (v, hm) →
      (v0 ≠ [] ∨ hm0 ≠ []) → (v ≠ [] ∨ hm ≠ []) := by
  intro cs
  induction cs with
  | nil =>
    intro v0 hm0 v hm hok hne
    rw [buildRxsLoop] at hok
    cases hok
    exact hne
  | cons c' rest ih =>
    intro v0 hm0 v hm hok hne
    rw [buildRxsLoop] at hok
    cases hcc : compileClause mc c' with
    | error f => rw [hcc] at hok; cases hok
    | ok r =>
      rw [hcc] at hok
      cases r with
      | inl np =>
        obtain ⟨n', p'⟩ := np
        refine ih _ _ _ _ hok (Or.inr ?_)
        rw [hmInsert]
        simp
      | inr p' =>
        refine ih _ _ _ _ hok (Or.inl ?_)
        simp

theorem buildRxsLoop_cons_ne {mc : Str} {c : Str} {cs : List Str}
    {v : List Str} {hm : List (Nat × Str)}
    (hok : buildRxsLoop mc (c :: cs) ([], []) = Except.ok (v, hm)) :
    v ≠ [] ∨ hm ≠ [] := by
  rw [buildRxsLoop] at hok
  cases hcc : compileClause mc c with
  | error f => rw [hcc] at hok; cases hok
  | ok r =>
    rw [hcc] at hok
    cases r with
    | inl np =>
      obtain ⟨n', p'⟩ := np
      refine buildRxsLoop_keeps_ne cs _ _ _ _ hok (Or.inr ?_)
      rw [hmInsert]
      simp
    | inr p' =>
      exact buildRxsLoop_keeps_ne cs _ _ _ _ hok (Or.inl (by simp))

/-- C2 counterexample: in the expression `1=foo&1=bar` both clauses name
column 1, so the second `HashMap::insert` replaces the first and the
compiled map keeps only `1=bar`.  The row `x;bar` then matches the compiled
expression even though its clause `1=foo` does not hold (cell 1 is `bar`,
which the literal pattern `foo` does not match) — refuting "a row matches
only if every clause holds" for clause lists with repeated column indices. -/
theorem c2_counterexample :
    buildRxsLoop "=".data ["1=foo".data, "1=bar".data] ([], []) =
      Except.ok ([], [(1, "bar".data)]) ∧
    (MatchExp.mk [] [(1, "bar".data)] CellSelect.ALL).matchRow litRegex
      ⟨["x".data, "bar".data]⟩ = true ∧
    clauseHolds litRegex "=".data ⟨["x".data, "bar".data]⟩ "1=foo".data = false :=
  ⟨rfl, by decide, rfl⟩

/-- C2 (amended): a `--match` expression of conjunction-joined clauses
matches a row only if every clause holds, provided the numeric clauses name
pairwise distinct column indices.  (When two clauses name the same index the
later `HashMap::insert` replaces the earlier, so only the last clause per
index is enforced — see the counterexample.) -/
theorem c2_amended_all_clauses_hold (sem : Str → Str → Bool) (mc : Str)
    (clauses : List Str) (v : List Str) (hm : List (Nat × Str))
    (sel : CellSelect) (row : CSVRow)
    (hok : buildRxsLoop mc clauses ([], []) = Except.ok (v, hm))
    (hnodup : (numericKeys mc clauses).Nodup)
    (hmatch : (MatchExp.mk v hm sel).matchRow sem row = true) :
    ∀ c ∈ clauses, clauseHolds sem mc row c = true := by
  intro c hc
  rw [MatchExp.matchRow] at hmatch
  simp only [Bool.and_eq_true, Bool.or_eq_true, List.all_eq_true,
    List.any_eq_true] at hmatch
  obtain ⟨hidx, hany⟩ := hmatch
  obtain ⟨r, hr⟩ := buildRxsLoop_ok_clause clauses _ _ hok c hc
  cases r with
  | inl np =>
    obtain ⟨n, pat⟩ := np
    have hmem : (n, pat) ∈ hm :=
      buildRxsLoop_inl_mem clauses _ _ _ _ hok hnodup c hc n pat hr
    rcases hidx with hbase | hall
    · exfalso
      have hne : v ≠ [] ∨ hm ≠ [] := by
        cases clauses with
        | nil => cases hc
        | cons c0 cs => exact buildRxsLoop_cons_ne hok
      have hhm : hm ≠ [] := fun h => by rw [h] at hmem; cases hmem
      simp only [Bool.and_eq_true, List.isEmpty_iff] at hbase
      exact hhm hbase.2
    · have := hall (n, pat) hmem
      rw [clauseHolds, hr]
      exact this
  | inr pat =>
    have hmem : pat ∈ v := buildRxsLoop_inr_mem clauses _ _ _ _ hok c hc pat hr
    rw [clauseHolds, hr]
    rw [List.any_eq_true]
    obtain ⟨cell, hcell, hsem⟩ := hany pat hmem
    exact ⟨cell, hcell, hsem⟩

theorem c2_amended_all_clauses_hold_witness :
    clauseHolds litRegex "=".data ⟨["x".data, "foobar".data]⟩ "1=foo".data = true ∧
    clauseHolds litRegex "=".data ⟨["x".data, "foobar".data]⟩ "*=bar".data = true := by
  have h := c2_amended_all_clauses_hold litRegex "=".data
    ["1=foo".data, "*=bar".data] ["bar".data] [(1, "foo".data)] CellSelect.ALL
    ⟨["x".data, "foobar".data]⟩ rfl (by decide) (by decide)
  exact ⟨h "1=foo".data (by simp), h "*=bar".data (by simp)⟩

theorem stripPlus_cons_ne {c : Char} {cs : Str} (h : c ≠ '+') :
    stripPlus (c :: cs) = c :: cs := by
  unfold stripPlus
  split
  · rename_i rest heq
    cases heq
    exact absurd rfl h
  · rfl

theorem parseUsize_none_of_digit_head {c0 : Str} (hn : numberRx c0 = true)
    (hnd : ¬(c0 ≠ [] ∧ c0.all Char.isDigit = true)) :
    parseUsize c0 = none := by
  cases c0 with
  | nil => cases hn
  | cons c cs =>
    have hd : isNd c = true := by
      rw [numberRx] at hn
      exact ((Bool.and_eq_true _ _).mp hn).1
    have hplus : c ≠ '+' := by
      intro h
      rw [h] at hd
      exact absurd hd (by decide)
    have hne : (c :: cs : Str) ≠ [] := by simp
    have hnall : ¬ ((c :: cs : Str).all Char.isDigit = true) :=
      fun h => hnd ⟨hne, h⟩
    rw [parseUsize, stripPlus_cons_ne hplus, parseDigits, if_neg hne, if_neg hnall]

/-- C7 counterexample: the clause `1x=foo` has left-hand side `1x`, which is
neither `*` nor a non-negative integer, yet compilation fails through the
column-parse panic with the fixed message `Invalid match column!` — a message
that does not name (or even contain) the offending spec `1x`, contrary to
the claim that the error names the offending column spec. -/
theorem c7_counterexample :
    (rustSplit "=".data "1x=foo".data).headD [] = "1x".data ∧
    ("1x".data ≠ ['*'] ∧ ("1x".data).all Char.isDigit = false) ∧
    compileClause "=".data "1x=foo".data =
      Except.error (Fatal.panicMsg invalidColumnMsg) ∧
    invalidColumnMsg ≠ invalidSpecMsg "1x".data ∧
    containsSeg "1x".data invalidColumnMsg = false :=
  ⟨rfl, ⟨by decide, by decide⟩, rfl, by decide, by decide⟩

/-- C7 (amended): for every clause whose left-hand side is neither `*` nor
all ASCII digits, compilation fails fatally before any row is processed; the
error message names the offending spec exactly when the left-hand side does
not match `NUMBER_RX` (does not begin with a Unicode decimal digit) — a
digit-headed left-hand side that is not a parsable integer instead dies in
the column-parse panic `Invalid match column!`, which does not name the
spec. -/
theorem c7_amended_invalid_spec (mc clause : Str)
    (hstar : (rustSplit mc clause).headD [] ≠ ['*'])
    (hdig : ¬((rustSplit mc clause).headD [] ≠ [] ∧
      ((rustSplit mc clause).headD []).all Char.isDigit = true)) :
    (numberRx ((rustSplit mc clause).headD []) = true ∧
      compileClause mc clause = Except.error (Fatal.panicMsg invalidColumnMsg)) ∨
    (numberRx ((rustSplit mc clause).headD []) = false ∧
      compileClause mc clause =
        Except.error (Fatal.errorExit
          (invalidSpecMsg ((rustSplit mc clause).headD [])))) := by
  cases hl : rustSplit mc clause with
  | nil => exact absurd hl (rustSplit_ne_nil mc clause)
  | cons c0 rest =>
    rw [hl] at hstar hdig
    simp only [List.headD_cons] at hstar hdig
    rw [compileClause, hl]
    simp only [List.headD_cons]
    have ha : ¬ asteriskRx c0 = true := by
      rw [asteriskRx]
      simp only [beq_iff_eq]
      exact hstar
    by_cases hn : numberRx c0 = true
    · left
      refine ⟨hn, ?_⟩
      rw [clauseFromParts.eq_def]
      simp only
      rw [if_pos hn, parseUsize_none_of_digit_head hn hdig]
    · right
      refine ⟨by revert hn; cases numberRx c0 <;> simp, ?_⟩
      rw [clauseFromParts.eq_def]
      simp only
      rw [if_neg hn, if_neg ha]

theorem c7_amended_invalid_spec_witness :
    (numberRx ((rustSplit "=".data "q=foo".data).headD []) = true ∧
      compileClause "=".data "q=foo".data =
        Except.error (Fatal.panicMsg invalidColumnMsg)) ∨
    (numberRx ((rustSplit "=".data "q=foo".data).headD []) = false ∧
      compileClause "=".data "q=foo".data =
        Except.error (Fatal.errorExit
          (invalidSpecMsg ((rustSplit "=".data "q=foo".data).headD [])))) :=
  c7_amended_invalid_spec "=".data "q=foo".data (by decide) (by decide)

theorem c3_expressions_or_witness :
    svgrep_lines litRegex ["a;b".data]
        ⟨";".data, false, [⟨[], [(0, "a".data)], CellSelect.ALL⟩]⟩ =
      List.flatten (List.map (fun l =>
        List.map
          (fun (e : MatchExp) => (CSVRow.parse_line l ";".data).print e.sel
            ⟨";".data, false, [⟨[], [(0, "a".data)], CellSelect.ALL⟩]⟩)
          (List.filter
            (fun (e : MatchExp) => e.matchRow litRegex (CSVRow.parse_line l ";".data))
            [⟨[], [(0, "a".data)], CellSelect.ALL⟩]))
        ["a;b".data]) :=
  (c3_expressions_or litRegex ⟨";".data, false, [⟨[], [(0, "a".data)], CellSelect.ALL⟩]⟩
    ["a;b".data] (by simp)).1

theorem c4_universal_matcher_witness :
    svgrep_lines litRegex ["a;b".data] ⟨";".data, false, []⟩ =
      ((["a;b".data] : List Str).map (fun l =>
        (((rustSplit ";".data l).enum).map (fun p =>
          ('(' :: natToStr p.1) ++ [')', ' '] ++ maybe_trim false p.2
            ++ ";".data ++ [' '])).flatten)) :=
  c4_universal_matcher litRegex ⟨";".data, false, []⟩ ["a;b".data] rfl
